import Mathlib

/-!
Verification of the "bstd" binary codec (src/std/python/bstd.py).

The Python module is shallowly embedded: byte buffers (`bytes` / `bytearray`)
become `List Nat`, offsets become `Nat`, Python `int` becomes `Nat` (for the
unsigned varint path) or `Int` (for ZigZag and byte marshaling), and raised
`BencException`s become the `Except BencError` monad.  Every definition below
mirrors the corresponding Python function line by line; loops become
recursions (`for i in range(MAX_VARINT_LEN)` becomes structural recursion on
the remaining fuel `MAX_VARINT_LEN - i`, `while v >= 0x80` becomes
well-founded recursion on `v`).
-/

namespace Bstd

/-- Error kinds of `BencError` in bstd.py. -/
inductive BencError where
  | OVERFLOW
  | BUF_TOO_SMALL
deriving DecidableEq, Repr

/-- Constant `MAX_VARINT_LEN = 10`, the maximum length of a 64-bit varint. -/
def MAX_VARINT_LEN : Nat := 10

/-- Python `size_uint(value)`: the loop `while v >= 0x80: v >>= 7; size += 1`
followed by `return size + 1`, written as a recursion on `v`. -/
def size_uint (value : Nat) : Nat :=
  if _h : value ≥ 0x80 then size_uint (value >>> 7) + 1 else 1
decreasing_by
  simp only [Nat.shiftRight_eq_div_pow]
  exact Nat.div_lt_self (by omega) (by norm_num)

/-- Loop body of Python `marshal_uint(n, b, value)`: `i` is the write cursor,
`v` the remaining value.  Each iteration bounds-checks, writes
`(v & 0x7F) | 0x80` while `v >= 0x80`, and finally writes `v & 0x7F`.
The updated buffer is returned alongside the new offset (Python mutates `b`
in place). -/
def marshal_uint_loop (b : List Nat) (i : Nat) (v : Nat) :
    Except BencError (Nat × List Nat) :=
  if _h : v ≥ 0x80 then
    if i ≥ b.length then .error .BUF_TOO_SMALL
    else marshal_uint_loop (b.set i ((v &&& 0x7F) ||| 0x80)) (i + 1) (v >>> 7)
  else
    if i ≥ b.length then .error .BUF_TOO_SMALL
    else .ok (i + 1, b.set i (v &&& 0x7F))
termination_by v
decreasing_by
  simp only [Nat.shiftRight_eq_div_pow]
  exact Nat.div_lt_self (by omega) (by norm_num)

/-- Python `marshal_uint(n, b, value)`. -/
def marshal_uint (n : Nat) (b : List Nat) (value : Nat) :
    Except BencError (Nat × List Nat) :=
  marshal_uint_loop b n value

/-- Loop of Python `unmarshal_uint(n, buf)`: `for i in range(MAX_VARINT_LEN)`
with accumulators `x` (value) and `s` (shift).  `fuel` is the number of
remaining iterations, so the loop index is `i = MAX_VARINT_LEN - fuel`;
running out of fuel is the `for`-loop falling through to `raise OVERFLOW`. -/
def unmarshal_uint_loop (buf : List Nat) (n : Nat) :
    Nat → Nat → Nat → Nat → Except BencError (Nat × Nat)
  | 0, _, _, _ => .error .OVERFLOW
  | fuel + 1, i, x, s =>
    if n + i ≥ buf.length then .error .BUF_TOO_SMALL
    else
      let byte_val := buf.getD (n + i) 0
      if byte_val < 0x80 then
        if i = MAX_VARINT_LEN - 1 ∧ byte_val > 1 then .error .OVERFLOW
        else .ok (n + i + 1, x ||| (byte_val <<< s))
      else
        unmarshal_uint_loop buf n fuel (i + 1)
          (x ||| ((byte_val &&& 0x7F) <<< s)) (s + 7)

/-- Python `unmarshal_uint(n, buf)`. -/
def unmarshal_uint (n : Nat) (buf : List Nat) : Except BencError (Nat × Nat) :=
  unmarshal_uint_loop buf n MAX_VARINT_LEN 0 0 0

/-- Loop of Python `skip_varint(n, buf)`, with the same fuel convention as
`unmarshal_uint_loop`. -/
def skip_varint_loop (buf : List Nat) (n : Nat) :
    Nat → Nat → Except BencError Nat
  | 0, _ => .error .OVERFLOW
  | fuel + 1, i =>
    if n + i ≥ buf.length then .error .BUF_TOO_SMALL
    else if buf.getD (n + i) 0 < 0x80 then
      if i = MAX_VARINT_LEN - 1 ∧ buf.getD (n + i) 0 > 1 then .error .OVERFLOW
      else .ok (n + i + 1)
    else
      skip_varint_loop buf n fuel (i + 1)

/-- Python `skip_varint(n, buf)`. -/
def skip_varint (n : Nat) (buf : List Nat) : Except BencError Nat :=
  skip_varint_loop buf n MAX_VARINT_LEN 0

/-- Python `encode_zigzag(value)`: `(abs(value) << 1) - 1 if value < 0 else
value << 1` (the shift is multiplication by 2 on these nonnegative
operands). -/
def encode_zigzag (value : Int) : Int :=
  if value < 0 then 2 * |value| - 1 else 2 * value

/-- Python `decode_zigzag(value)`: `-(value >> 1) - 1 if value & 1 else
value >> 1`; on the nonnegative inputs produced by `encode_zigzag`,
`value & 1` is `value % 2` and `value >> 1` is `value / 2`. -/
def decode_zigzag (value : Int) : Int :=
  if value % 2 = 1 then -(value / 2) - 1 else value / 2

/-- Python `marshal_byte(n, b, value)`: writes `value & 0xFF`; Python's
bitwise AND of an arbitrary (possibly negative) int with 0xFF is exactly
`value mod 256`. -/
def marshal_byte (n : Nat) (b : List Nat) (value : Int) :
    Except BencError (Nat × List Nat) :=
  if b.length - n < 1 then .error .BUF_TOO_SMALL
  else .ok (n + 1, b.set n (value % 256).toNat)

/-- Python `unmarshal_byte(n, b)`. -/
def unmarshal_byte (n : Nat) (b : List Nat) : Except BencError (Nat × Nat) :=
  if b.length - n < 1 then .error .BUF_TOO_SMALL
  else .ok (n + 1, b.getD n 0)

/-- Python `skip_byte(n, b)`. -/
def skip_byte (n : Nat) (b : List Nat) : Except BencError Nat :=
  if b.length - n < 1 then .error .BUF_TOO_SMALL
  else .ok (n + 1)

/-- Element-marshaling loop of Python `marshal_slice`: `for item in
slice_data: n = marshaler(n, b, item)`, threading the mutable buffer. -/
def marshal_slice_elems {α : Type}
    (marshaler : Nat → List Nat → α → Except BencError (Nat × List Nat)) :
    List α → Nat → List Nat → Except BencError (Nat × List Nat)
  | [], n, b => .ok (n, b)
  | item :: rest, n, b =>
    match marshaler n b item with
    | .error e => .error e
    | .ok (n2, b2) => marshal_slice_elems marshaler rest n2 b2

/-- Terminator write `b[n:n+4] = b'\x01\x01\x01\x01'` of Python
`marshal_slice`. -/
def write_terminator (b : List Nat) (n : Nat) : List Nat :=
  ((((b.set n 1).set (n + 1) 1).set (n + 2) 1).set (n + 3) 1)

/-- Python `marshal_slice(n, b, slice_data, marshaler)`: count varint, then
each element, then the 4-byte terminator `{1,1,1,1}` after a bounds check. -/
def marshal_slice {α : Type} (n : Nat) (b : List Nat) (slice_data : List α)
    (marshaler : Nat → List Nat → α → Except BencError (Nat × List Nat)) :
    Except BencError (Nat × List Nat) :=
  match marshal_uint n b slice_data.length with
  | .error e => .error e
  | .ok (n1, b1) =>
    match marshal_slice_elems marshaler slice_data n1 b1 with
    | .error e => .error e
    | .ok (n2, b2) =>
      if b2.length - n2 < 4 then .error .BUF_TOO_SMALL
      else .ok (n2 + 4, write_terminator b2 n2)

/-- Element loop of Python `unmarshal_slice`: `for _ in range(size)`,
appending each unmarshaled item in order. -/
def unmarshal_slice_elems {α : Type}
    (unmarshaler : Nat → List Nat → Except BencError (Nat × α)) :
    Nat → Nat → List Nat → Except BencError (Nat × List α)
  | 0, n, _ => .ok (n, [])
  | count + 1, n, b =>
    match unmarshaler n b with
    | .error e => .error e
    | .ok (n2, item) =>
      match unmarshal_slice_elems unmarshaler count n2 b with
      | .error e => .error e
      | .ok (n3, rest) => .ok (n3, item :: rest)

/-- Python `unmarshal_slice(n, b, unmarshaler)`: read the count, call the
element unmarshaler exactly `count` times in order, then require at least 4
bytes for the terminator and advance past them without reading them. -/
def unmarshal_slice {α : Type} (n : Nat) (b : List Nat)
    (unmarshaler : Nat → List Nat → Except BencError (Nat × α)) :
    Except BencError (Nat × List α) :=
  match unmarshal_uint n b with
  | .error e => .error e
  | .ok (n1, size) =>
    match unmarshal_slice_elems unmarshaler size n1 b with
    | .error e => .error e
    | .ok (n2, result) =>
      if b.length - n2 < 4 then .error .BUF_TOO_SMALL
      else .ok (n2 + 4, result)

/-- Element loop of Python `skip_slice`: `for _ in range(element_count)`. -/
def skip_slice_elems
    (element_skipper : Nat → List Nat → Except BencError Nat) :
    Nat → Nat → List Nat → Except BencError Nat
  | 0, n, _ => .ok n
  | count + 1, n, b =>
    match element_skipper n b with
    | .error e => .error e
    | .ok n2 => skip_slice_elems element_skipper count n2 b

/-- Python `skip_slice(n, b, element_skipper)` (src/std/python/bstd.py):
read the count, skip each element individually, then require at least 4
bytes for the terminator and advance past them. -/
def skip_slice (n : Nat) (b : List Nat)
    (element_skipper : Nat → List Nat → Except BencError Nat) :
    Except BencError Nat :=
  match unmarshal_uint n b with
  | .error e => .error e
  | .ok (n1, element_count) =>
    match skip_slice_elems element_skipper element_count n1 b with
    | .error e => .error e
    | .ok n2 =>
      if b.length - n2 < 4 then .error .BUF_TOO_SMALL
      else .ok (n2 + 4)

/-- Number of bytes of the UTF-8 encoding of one Unicode code point; models
the per-character contribution of Python's `s.encode('utf-8')`. -/
def utf8_size (cp : Nat) : Nat :=
  if cp < 0x80 then 1 else if cp < 0x800 then 2
  else if cp < 0x10000 then 3 else 4

/-- Byte length of the UTF-8 encoding of a Python string, the string being
modelled as its list of Unicode code points; models
`len(s.encode('utf-8'))`. -/
def utf8_len (s : List Nat) : Nat := (s.map utf8_size).sum

/-- Python `size_string(s)` (src/std/python/bstd.py):
`str_len = len(s.encode('utf-8')); return str_len + size_uint(str_len)`. -/
def size_string (s : List Nat) : Nat :=
  utf8_len s + size_uint (utf8_len s)

/-! ### Arithmetic helper lemmas about the 7-bit groups -/

theorem and_127_eq_mod (v : Nat) : v &&& 127 = v % 128 := by
  simpa using Nat.and_pow_two_sub_one_eq_mod v 7

theorem or_128_eq_add (a : Nat) (h : a < 128) : a ||| 128 = a + 128 := by
  have h2 := Nat.mul_add_lt_is_or (show a < 2 ^ 7 by omega) 1
  norm_num at h2
  rw [Nat.lor_comm]
  omega

theorem shift_or_assemble (s c d : Nat) (h : c < 128) :
    (c <<< s) ||| (d <<< (s + 7)) = (c + 128 * d) <<< s := by
  have h1 : c * 2 ^ s < 2 ^ (s + 7) := by
    calc c * 2 ^ s < 128 * 2 ^ s := by
          exact Nat.mul_lt_mul_of_pos_right h (by positivity)
    _ = 2 ^ (s + 7) := by rw [pow_add]; ring
  calc (c <<< s) ||| (d <<< (s + 7))
      = c * 2 ^ s ||| d * 2 ^ (s + 7) := by rw [Nat.shiftLeft_eq, Nat.shiftLeft_eq]
    _ = 2 ^ (s + 7) * d ||| c * 2 ^ s := by rw [Nat.lor_comm, mul_comm d]
    _ = 2 ^ (s + 7) * d + c * 2 ^ s := (Nat.mul_add_lt_is_or h1 d).symm
    _ = (c + 128 * d) * 2 ^ s := by rw [pow_add]; ring
    _ = (c + 128 * d) <<< s := (Nat.shiftLeft_eq _ _).symm

theorem shr7_lt {v : Nat} (h : 128 ≤ v) : v >>> 7 < v := by
  simp only [Nat.shiftRight_eq_div_pow]
  exact Nat.div_lt_self (by omega) (by norm_num)

theorem shr7_eq_div (v : Nat) : v >>> 7 = v / 128 := by
  simp [Nat.shiftRight_eq_div_pow]

/-! ### The byte string that `marshal_uint` writes -/

/-- Byte sequence produced by the `marshal_uint` loop for a value `v`:
continuation bytes `(v & 0x7F) | 0x80` while `v >= 0x80`, then the final
byte `v & 0x7F`. -/
def enc (v : Nat) : List Nat :=
  if _h : v ≥ 0x80 then ((v &&& 0x7F) ||| 0x80) :: enc (v >>> 7) else [v &&& 0x7F]
decreasing_by exact shr7_lt _h

/-- Value assembled from the low 7 bits of each byte, the byte at index `i`
contributing at bit offset `7 * i`. -/
def low7_assemble : List Nat → Nat
  | [] => 0
  | b :: rest => (b &&& 0x7F) + 128 * low7_assemble rest

theorem enc_of_ge (v : Nat) (h : 128 ≤ v) :
    enc v = ((v &&& 0x7F) ||| 0x80) :: enc (v >>> 7) := by
  rw [enc]; simp [h]

theorem enc_of_lt (v : Nat) (h : v < 128) : enc v = [v &&& 0x7F] := by
  rw [enc]; simp [Nat.not_le.mpr h]

theorem enc_length_eq_size_uint (v : Nat) : (enc v).length = size_uint v := by
  induction v using Nat.strong_induction_on with
  | _ v ih =>
    by_cases h : 128 ≤ v
    · rw [enc_of_ge v h, size_uint, dif_pos h, List.length_cons,
        ih _ (shr7_lt h)]
    · rw [enc_of_lt v (by omega), size_uint, dif_neg h, List.length_singleton]

theorem low7_assemble_enc (v : Nat) : low7_assemble (enc v) = v := by
  induction v using Nat.strong_induction_on with
  | _ v ih =>
    by_cases h : 128 ≤ v
    · rw [enc_of_ge v h]
      show ((v &&& 127 ||| 128) &&& 127) + 128 * low7_assemble (enc (v >>> 7)) = v
      rw [ih _ (shr7_lt h)]
      have h1 : v &&& 127 = v % 128 := and_127_eq_mod v
      rw [h1, or_128_eq_add _ (Nat.mod_lt _ (by norm_num)), and_127_eq_mod,
        shr7_eq_div]
      omega
    · rw [enc_of_lt v (by omega)]
      show ((v &&& 127) &&& 127) + 128 * 0 = v
      have h1 : v &&& 127 = v % 128 := and_127_eq_mod v
      rw [h1, and_127_eq_mod]
      omega

theorem enc_ne_nil (v : Nat) : enc v ≠ [] := by
  by_cases h : 128 ≤ v
  · rw [enc_of_ge v h]; simp
  · rw [enc_of_lt v (by omega)]; simp

theorem enc_length_pos (v : Nat) : 0 < (enc v).length :=
  List.length_pos.mpr (enc_ne_nil v)

theorem enc_getD_cont (v : Nat) :
    ∀ j, j + 1 < (enc v).length → 128 ≤ (enc v).getD j 0 := by
  induction v using Nat.strong_induction_on with
  | _ v ih =>
    intro j hj
    by_cases h : 128 ≤ v
    · rw [enc_of_ge v h] at hj ⊢
      cases j with
      | zero =>
        rw [List.getD_cons_zero]
        have h1 : v &&& 127 = v % 128 := and_127_eq_mod v
        rw [h1, or_128_eq_add _ (Nat.mod_lt _ (by norm_num))]
        omega
      | succ j =>
        rw [List.getD_cons_succ]
        exact ih _ (shr7_lt h) j (by simpa using Nat.lt_of_succ_lt_succ hj)
    · rw [enc_of_lt v (by omega)] at hj
      simp at hj

theorem enc_getD_last (v : Nat) :
    (enc v).getD ((enc v).length - 1) 0 = v >>> (7 * ((enc v).length - 1)) := by
  induction v using Nat.strong_induction_on with
  | _ v ih =>
    by_cases h : 128 ≤ v
    · rw [enc_of_ge v h]
      have hpos := enc_length_pos (v >>> 7)
      have hlen : ((v &&& 0x7F ||| 0x80) :: enc (v >>> 7)).length - 1
          = ((enc (v >>> 7)).length - 1) + 1 := by
        simp only [List.length_cons]
        omega
      rw [hlen, List.getD_cons_succ, ih _ (shr7_lt h), ← Nat.shiftRight_add]
      congr 1
      omega
    · rw [enc_of_lt v (by omega)]
      simp only [List.length_singleton, Nat.sub_self, List.getD_cons_zero,
        Nat.mul_zero, Nat.shiftRight_zero]
      have h1 : v &&& 127 = v % 128 := and_127_eq_mod v
      omega

theorem enc_getD_last_lt (v : Nat) :
    (enc v).getD ((enc v).length - 1) 0 < 128 := by
  induction v using Nat.strong_induction_on with
  | _ v ih =>
    by_cases h : 128 ≤ v
    · rw [enc_of_ge v h]
      have hpos := enc_length_pos (v >>> 7)
      have hlen : ((v &&& 0x7F ||| 0x80) :: enc (v >>> 7)).length - 1
          = ((enc (v >>> 7)).length - 1) + 1 := by
        simp only [List.length_cons]
        omega
      rw [hlen, List.getD_cons_succ]
      exact ih _ (shr7_lt h)
    · rw [enc_of_lt v (by omega)]
      simp only [List.length_singleton, Nat.sub_self, List.getD_cons_zero]
      have h1 : v &&& 127 = v % 128 := and_127_eq_mod v
      omega

theorem enc_length_le : ∀ k v, v < 2 ^ (7 * k + 7) → (enc v).length ≤ k + 1 := by
  intro k
  induction k with
  | zero =>
    intro v hv
    norm_num at hv
    rw [enc_of_lt v hv]
    simp
  | succ k ih =>
    intro v hv
    by_cases h : 128 ≤ v
    · rw [enc_of_ge v h, List.length_cons]
      have hdiv : v >>> 7 < 2 ^ (7 * k + 7) := by
        rw [shr7_eq_div]
        have : (128 : Nat) * 2 ^ (7 * k + 7) = 2 ^ (7 * (k + 1) + 7) := by
          rw [show 7 * (k + 1) + 7 = (7 * k + 7) + 7 by ring, pow_add]
          ring
        omega
      have := ih _ hdiv
      omega
    · rw [enc_of_lt v (by omega)]
      simp

theorem enc_length_ge : ∀ k v, 2 ^ (7 * k) ≤ v → k + 1 ≤ (enc v).length := by
  intro k
  induction k with
  | zero =>
    intro v _
    exact enc_length_pos v
  | succ k ih =>
    intro v hv
    have h128 : 128 ≤ v := by
      have : (2 : Nat) ^ 7 ≤ 2 ^ (7 * (k + 1)) :=
        Nat.pow_le_pow_right (by norm_num) (by omega)
      norm_num at this
      omega
    rw [enc_of_ge v h128, List.length_cons]
    have hdiv : 2 ^ (7 * k) ≤ v >>> 7 := by
      rw [shr7_eq_div]
      have : (2 : Nat) ^ (7 * k) * 128 = 2 ^ (7 * (k + 1)) := by
        rw [show 7 * (k + 1) = 7 * k + 7 by ring, pow_add]
        ring
      omega
    have := ih _ hdiv
    omega

/-! ### List access helper lemmas -/

theorem getD_set_self (l : List Nat) (i : Nat) (a : Nat) (h : i < l.length) :
    (l.set i a).getD i 0 = a := by
  rw [List.getD_eq_getElem?_getD, List.getElem?_set_eq_of_lt a h]
  rfl

theorem getD_set_ne (l : List Nat) {i j : Nat} (a : Nat) (h : i ≠ j) :
    (l.set i a).getD j 0 = l.getD j 0 := by
  rw [List.getD_eq_getElem?_getD, List.getElem?_set_ne h,
    ← List.getD_eq_getElem?_getD]

theorem drop_take_cons (l : List Nat) (m c : Nat) (h : m < l.length) :
    (l.drop m).take (c + 1) = l.getD m 0 :: (l.drop (m + 1)).take c := by
  rw [List.drop_eq_getElem_cons h, List.getD_eq_getElem l 0 h]
  rfl

/-! ### Behaviour of the `unmarshal_uint` scanning loop -/

theorem ul_mono (buf : List Nat) (n : Nat) :
    ∀ fuel i x s n1 v,
      unmarshal_uint_loop buf n fuel i x s = .ok (n1, v) → n + i < n1 := by
  intro fuel
  induction fuel with
  | zero =>
    intro i x s n1 v h
    exact absurd h (by simp [unmarshal_uint_loop])
  | succ fuel ih =>
    intro i x s n1 v h
    simp only [unmarshal_uint_loop] at h
    split_ifs at h with h1 h2 h3
    · injection h with h4
      have h5 := congrArg Prod.fst h4
      simp only at h5
      omega
    · have := ih _ _ _ _ _ h
      omega

theorem ul_buf_too_small (buf : List Nat) (n : Nat) :
    ∀ fuel i x s, 0 < fuel → buf.length < n + i + fuel →
      (∀ j, i ≤ j → n + j < buf.length → 128 ≤ buf.getD (n + j) 0) →
      unmarshal_uint_loop buf n fuel i x s = .error .BUF_TOO_SMALL := by
  intro fuel
  induction fuel with
  | zero =>
    intro i x s hpos
    omega
  | succ fuel ih =>
    intro i x s _ hlen hcont
    simp only [unmarshal_uint_loop]
    by_cases h1 : n + i ≥ buf.length
    · rw [if_pos h1]
    · rw [if_neg h1]
      have hc : 128 ≤ buf.getD (n + i) 0 := hcont i (Nat.le_refl i) (by omega)
      rw [if_neg (by omega)]
      exact ih (i + 1) _ _ (by omega) (by omega) fun j hj hjl => hcont j (by omega) hjl

theorem ul_overflow_exhaust (buf : List Nat) (n : Nat) :
    ∀ fuel i x s, n + i + fuel ≤ buf.length →
      (∀ j, i ≤ j → j < i + fuel → 128 ≤ buf.getD (n + j) 0) →
      unmarshal_uint_loop buf n fuel i x s = .error .OVERFLOW := by
  intro fuel
  induction fuel with
  | zero =>
    intro i x s _ _
    rfl
  | succ fuel ih =>
    intro i x s hlen hcont
    simp only [unmarshal_uint_loop]
    rw [if_neg (by omega)]
    have hc : 128 ≤ buf.getD (n + i) 0 := hcont i (Nat.le_refl i) (by omega)
    rw [if_neg (by omega)]
    exact ih (i + 1) _ _ (by omega) fun j hj hjl => hcont j (by omega) (by omega)

theorem ul_term (buf : List Nat) (n : Nat) :
    ∀ fuel i x s k, i ≤ k → k < i + fuel → n + k < buf.length →
      (∀ j, i ≤ j → j < k → 128 ≤ buf.getD (n + j) 0) →
      buf.getD (n + k) 0 < 128 →
      unmarshal_uint_loop buf n fuel i x s =
        if k = MAX_VARINT_LEN - 1 ∧ buf.getD (n + k) 0 > 1 then
          .error .OVERFLOW
        else
          .ok (n + k + 1,
            x ||| (low7_assemble ((buf.drop (n + i)).take (k + 1 - i)) <<< s)) := by
  intro fuel
  induction fuel with
  | zero =>
    intro i x s k _ _
    omega
  | succ fuel ih =>
    intro i x s k hik hkf hkl hcont hterm
    simp only [unmarshal_uint_loop]
    rw [if_neg (by omega)]
    by_cases heq : i = k
    · subst heq
      rw [if_pos hterm]
      have hslice : (buf.drop (n + i)).take (i + 1 - i) = [buf.getD (n + i) 0] := by
        have h1 : i + 1 - i = 0 + 1 := by omega
        rw [h1, drop_take_cons buf (n + i) 0 (by omega), List.take_zero]
      rw [hslice]
      have hval : low7_assemble [buf.getD (n + i) 0] = buf.getD (n + i) 0 := by
        show (buf.getD (n + i) 0 &&& 127) + 128 * 0 = buf.getD (n + i) 0
        rw [and_127_eq_mod]
        omega
      rw [hval]
    · have hik2 : i < k := by omega
      have hc : 128 ≤ buf.getD (n + i) 0 := hcont i (Nat.le_refl i) hik2
      rw [if_neg (by omega)]
      rw [ih (i + 1) _ _ k (by omega) (by omega) hkl
        (fun j hj hjk => hcont j (by omega) hjk) hterm]
      by_cases hc9 : k = MAX_VARINT_LEN - 1 ∧ buf.getD (n + k) 0 > 1
      · rw [if_pos hc9, if_pos hc9]
      · rw [if_neg hc9, if_neg hc9]
        have hsplit : (buf.drop (n + i)).take (k + 1 - i)
            = buf.getD (n + i) 0 :: (buf.drop (n + i + 1)).take (k - i) := by
          have h1 : k + 1 - i = (k - i) + 1 := by omega
          rw [h1, drop_take_cons buf (n + i) (k - i) (by omega)]
        rw [hsplit]
        have hlow : low7_assemble (buf.getD (n + i) 0
              :: (buf.drop (n + i + 1)).take (k - i))
            = (buf.getD (n + i) 0 &&& 0x7F)
              + 128 * low7_assemble ((buf.drop (n + i + 1)).take (k - i)) := rfl
        rw [hlow, ← shift_or_assemble s _ _ (by rw [and_127_eq_mod]; omega),
          ← Nat.lor_assoc,
          show k + 1 - (i + 1) = k - i from by omega,
          show n + (i + 1) = n + i + 1 from by omega]

theorem ul_stable (buf buf2 : List Nat) (n : Nat) :
    ∀ fuel i x s n1 v,
      unmarshal_uint_loop buf n fuel i x s = .ok (n1, v) →
      n1 ≤ buf2.length →
      (∀ j, n + i ≤ j → j < n1 → buf2.getD j 0 = buf.getD j 0) →
      unmarshal_uint_loop buf2 n fuel i x s = .ok (n1, v) := by
  intro fuel
  induction fuel with
  | zero =>
    intro i x s n1 v h
    exact absurd h (by simp [unmarshal_uint_loop])
  | succ fuel ih =>
    intro i x s n1 v h hlen hagree
    have hmono := ul_mono buf n (fuel + 1) i x s n1 v h
    simp only [unmarshal_uint_loop] at h ⊢
    split_ifs at h with h1 h2 h3
    · have hb2 : buf2.getD (n + i) 0 = buf.getD (n + i) 0 :=
        hagree _ (Nat.le_refl _) (by omega)
      rw [if_neg (show ¬n + i ≥ buf2.length by omega), hb2, if_pos h2, if_neg h3]
      exact h
    · have hb2 : buf2.getD (n + i) 0 = buf.getD (n + i) 0 :=
        hagree _ (Nat.le_refl _) (by omega)
      rw [if_neg (show ¬n + i ≥ buf2.length by omega), hb2, if_neg h2]
      exact ih _ _ _ _ _ h hlen fun j hj hjl => hagree j (by omega) hjl

theorem skip_loop_eq_unmarshal (buf : List Nat) (n : Nat) :
    ∀ fuel i x s,
      skip_varint_loop buf n fuel i
        = (unmarshal_uint_loop buf n fuel i x s).map Prod.fst := by
  intro fuel
  induction fuel with
  | zero =>
    intro i x s
    rfl
  | succ fuel ih =>
    intro i x s
    simp only [skip_varint_loop, unmarshal_uint_loop]
    by_cases h1 : n + i ≥ buf.length
    · rw [if_pos h1, if_pos h1]
      rfl
    · rw [if_neg h1, if_neg h1]
      by_cases h2 : buf.getD (n + i) 0 < 128
      · rw [if_pos h2, if_pos h2]
        by_cases h3 : i = MAX_VARINT_LEN - 1 ∧ buf.getD (n + i) 0 > 1
        · rw [if_pos h3, if_pos h3]
          rfl
        · rw [if_neg h3, if_neg h3]
          rfl
      · rw [if_neg h2, if_neg h2]
        exact ih (i + 1) _ _

/-! ### Behaviour of the `marshal_uint` writing loop -/

theorem marshal_loop_ok (v : Nat) :
    ∀ i b, i + (enc v).length ≤ b.length →
      ∃ b2, marshal_uint_loop b i v = .ok (i + (enc v).length, b2) ∧
        b2.length = b.length ∧
        (∀ j, j < (enc v).length → b2.getD (i + j) 0 = (enc v).getD j 0) ∧
        (∀ j, j < i ∨ i + (enc v).length ≤ j → b2.getD j 0 = b.getD j 0) := by
  induction v using Nat.strong_induction_on with
  | _ v ih =>
    intro i b hlen
    by_cases h : 128 ≤ v
    · rw [enc_of_ge v h] at hlen ⊢
      simp only [List.length_cons] at hlen ⊢
      have hlt : i < b.length := by omega
      obtain ⟨b2, hok, hlen2, hin, hout⟩ :=
        ih (v >>> 7) (shr7_lt h) (i + 1) (b.set i ((v &&& 0x7F) ||| 0x80))
          (by rw [List.length_set]; omega)
      refine ⟨b2, ?_, ?_, ?_, ?_⟩
      · rw [marshal_uint_loop, dif_pos h, if_neg (by omega), hok,
          show i + 1 + (enc (v >>> 7)).length = i + ((enc (v >>> 7)).length + 1)
            from by omega]
      · rw [hlen2, List.length_set]
      · intro j hj
        cases j with
        | zero =>
          rw [Nat.add_zero, List.getD_cons_zero]
          have := hout i (Or.inl (by omega))
          rw [this, getD_set_self b i _ hlt]
        | succ j =>
          rw [List.getD_cons_succ,
            show i + (j + 1) = i + 1 + j from by omega]
          exact hin j (by omega)
      · intro j hj
        have h1 : b2.getD j 0 = (b.set i ((v &&& 0x7F) ||| 0x80)).getD j 0 :=
          hout j (by omega)
        rw [h1, getD_set_ne b _ (by omega)]
    · rw [enc_of_lt v (by omega)] at hlen ⊢
      simp only [List.length_singleton] at hlen ⊢
      refine ⟨b.set i (v &&& 0x7F), ?_, List.length_set b i _, ?_, ?_⟩
      · rw [marshal_uint_loop, dif_neg h, if_neg (by omega)]
      · intro j hj
        have hj0 : j = 0 := by omega
        subst hj0
        rw [Nat.add_zero, List.getD_cons_zero, getD_set_self b i _ (by omega)]
      · intro j hj
        rw [getD_set_ne b _ (by omega)]

theorem list_eq_of_getD (l1 l2 : List Nat) (hlen : l1.length = l2.length)
    (h : ∀ j, j < l2.length → l1.getD j 0 = l2.getD j 0) : l1 = l2 := by
  apply List.ext_getElem hlen
  intro j hj1 hj2
  have h2 := h j hj2
  rwa [List.getD_eq_getElem l1 0 hj1, List.getD_eq_getElem l2 0 hj2] at h2

/-! ### Claims -/

/-- Claim C1: `unmarshal_uint(n, b)` raises BUF_TOO_SMALL when the buffer
ends before a continuation-bit-clear byte is found within 10 bytes from `n`;
raises OVERFLOW when the 10th byte is reached with a value exceeding 1
(including the case of 10 continuation bytes); otherwise returns the offset
one past the terminating byte together with the value assembled from the low
7 bits of each byte at bit offset `7*i`; with the five concrete examples of
the spec. -/
theorem claim_c1_unmarshal_uint (buf : List Nat) (n : Nat) :
    (buf.length < n + 10 →
      (∀ j, n + j < buf.length → 128 ≤ buf.getD (n + j) 0) →
      unmarshal_uint n buf = .error .BUF_TOO_SMALL)
    ∧ (n + 10 ≤ buf.length →
      (∀ j, j < 9 → 128 ≤ buf.getD (n + j) 0) →
      1 < buf.getD (n + 9) 0 →
      unmarshal_uint n buf = .error .OVERFLOW)
    ∧ (∀ k, k < 10 → n + k < buf.length →
      (∀ j, j < k → 128 ≤ buf.getD (n + j) 0) →
      buf.getD (n + k) 0 < 128 →
      (k = 9 → buf.getD (n + k) 0 ≤ 1) →
      unmarshal_uint n buf
        = .ok (n + k + 1, low7_assemble ((buf.drop n).take (k + 1))))
    ∧ unmarshal_uint 0 [0x05] = .ok (1, 5)
    ∧ unmarshal_uint 0 [0x80, 0x01] = .ok (2, 128)
    ∧ unmarshal_uint 0 [0x80] = .error .BUF_TOO_SMALL
    ∧ unmarshal_uint 0 (List.replicate 10 0x80) = .error .OVERFLOW
    ∧ unmarshal_uint 0 (List.replicate 9 0x80 ++ [0x02]) = .error .OVERFLOW := by
  refine ⟨?_, ?_, ?_, rfl, rfl, rfl, rfl, rfl⟩
  · intro hlen hcont
    exact ul_buf_too_small buf n 10 0 0 0 (by norm_num) (by omega)
      fun j _ hj => hcont j hj
  · intro hlen hcont hbig
    by_cases hc : buf.getD (n + 9) 0 < 128
    · have ht := ul_term buf n 10 0 0 0 9 (by omega) (by omega) (by omega)
        (fun j _ hj => hcont j hj) hc
      exact ht.trans (if_pos ⟨by decide, hbig⟩)
    · exact ul_overflow_exhaust buf n 10 0 0 0 (by omega) fun j _ hj => by
        by_cases hj9 : j < 9
        · exact hcont j hj9
        · have hj' : j = 9 := by omega
          subst hj'
          omega
  · intro k hk hkl hcont hterm h9
    have ht := ul_term buf n 10 0 0 0 k (by omega) (by omega) hkl
      (fun j _ hj => hcont j hj) hterm
    have hcond : ¬(k = MAX_VARINT_LEN - 1 ∧ buf.getD (n + k) 0 > 1) := by
      rintro ⟨hk9, hbig⟩
      norm_num [MAX_VARINT_LEN] at hk9
      exact absurd (h9 hk9) (by omega)
    rw [show unmarshal_uint n buf = unmarshal_uint_loop buf n MAX_VARINT_LEN 0 0 0
        from rfl, show MAX_VARINT_LEN = 10 from rfl, ht, if_neg hcond]
    simp [Nat.shiftLeft_zero, Nat.zero_or]

/-- Claim C1 witness: a two-byte all-continuation buffer is reported as too
small via the general BUF_TOO_SMALL clause. -/
theorem claim_c1_witness :
    unmarshal_uint 0 [0x90, 0x85] = .error .BUF_TOO_SMALL :=
  (claim_c1_unmarshal_uint [0x90, 0x85] 0).1 (by norm_num) fun j hj => by
    have hj2 : j = 0 ∨ j = 1 := by simp at hj; omega
    rcases hj2 with rfl | rfl <;> decide

/-- Claim C3: `skip_varint` agrees with `unmarshal_uint` on every input,
returning the offset component on success and the same error kind on
failure. -/
theorem claim_c3_skip_agrees (n : Nat) (buf : List Nat) :
    skip_varint n buf = (unmarshal_uint n buf).map Prod.fst :=
  skip_loop_eq_unmarshal buf n MAX_VARINT_LEN 0 0 0

/-- Claim C4: ZigZag encoding is a bijection between signed 64-bit integers
and unsigned 64-bit integers, with decode its exact inverse (including the
minimum value), and the spec's concrete values. -/
theorem claim_c4_zigzag :
    (∀ v : Int, -(2 ^ 63) ≤ v → v < 2 ^ 63 →
        0 ≤ encode_zigzag v ∧ encode_zigzag v < 2 ^ 64 ∧
        decode_zigzag (encode_zigzag v) = v)
    ∧ (∀ u : Int, 0 ≤ u → u < 2 ^ 64 →
        -(2 ^ 63) ≤ decode_zigzag u ∧ decode_zigzag u < 2 ^ 63 ∧
        encode_zigzag (decode_zigzag u) = u)
    ∧ encode_zigzag 0 = 0 ∧ encode_zigzag (-1) = 1
    ∧ encode_zigzag 1 = 2 ∧ encode_zigzag (-2) = 3 := by
  refine ⟨?_, ?_, by decide, by decide, by decide, by decide⟩
  · intro v h1 h2
    simp only [encode_zigzag, decode_zigzag]
    by_cases hv : v < 0
    · rw [if_pos hv, abs_of_neg hv]
      have he : (2 * -v - 1) % 2 = 1 := by omega
      rw [if_pos he]
      exact ⟨by omega, by omega, by omega⟩
    · rw [if_neg hv]
      have he : ¬(2 * v % 2 = 1) := by omega
      rw [if_neg he]
      exact ⟨by omega, by omega, by omega⟩
  · intro u h1 h2
    simp only [encode_zigzag, decode_zigzag]
    by_cases hu : u % 2 = 1
    · rw [if_pos hu]
      have hneg : -(u / 2) - 1 < 0 := by omega
      rw [if_pos hneg, abs_of_neg hneg]
      exact ⟨by omega, by omega, by omega⟩
    · rw [if_neg hu]
      have hnn : ¬(u / 2 < 0) := by omega
      rw [if_neg hnn]
      exact ⟨by omega, by omega, by omega⟩

/-- Claim C4 witness: the minimum signed 64-bit value maps into the unsigned
64-bit range and decodes back to itself. -/
theorem claim_c4_witness :
    0 ≤ encode_zigzag (-(2 ^ 63)) ∧ encode_zigzag (-(2 ^ 63)) < 2 ^ 64 ∧
    decode_zigzag (encode_zigzag (-(2 ^ 63))) = -(2 ^ 63) :=
  claim_c4_zigzag.1 (-(2 ^ 63)) (by norm_num) (by norm_num)

theorem two_pow_le_two_pow {a b : Nat} (h : a ≤ b) : (2 : Nat) ^ a ≤ 2 ^ b :=
  Nat.pow_le_pow_right (by norm_num) h

/-- Unmarshaling the encoding that `marshal_uint` writes recovers the value,
for any buffer whose bytes in `[0, (enc v).length)` are the encoding. -/
theorem unmarshal_enc (v : Nat) (hv : v < 2 ^ 64) :
    unmarshal_uint 0 (enc v) = .ok (size_uint v, v) := by
  have hLpos := enc_length_pos v
  have hL10 : (enc v).length ≤ 10 := by
    have h70 : v < 2 ^ (7 * 9 + 7) := by
      have := two_pow_le_two_pow (show 64 ≤ 70 by norm_num)
      omega
    have := enc_length_le 9 v h70
    omega
  have ht := ul_term (enc v) 0 10 0 0 0 ((enc v).length - 1) (by omega)
    (by omega) (by omega)
    (fun j _ hj => by
      have := enc_getD_cont v j (by omega)
      simpa using this)
    (by
      have := enc_getD_last_lt v
      simpa using this)
  have hcond : ¬((enc v).length - 1 = MAX_VARINT_LEN - 1 ∧
      (enc v).getD (0 + ((enc v).length - 1)) 0 > 1) := by
    rintro ⟨hk9, hbig⟩
    norm_num [MAX_VARINT_LEN] at hk9
    have hlast := enc_getD_last v
    rw [Nat.zero_add, hlast, hk9, Nat.shiftRight_eq_div_pow] at hbig
    norm_num at hbig
    have hdm := Nat.div_mul_le_self v (2 ^ 63)
    norm_num at hdm
    norm_num at hv
    omega
  rw [show unmarshal_uint 0 (enc v)
      = unmarshal_uint_loop (enc v) 0 MAX_VARINT_LEN 0 0 0 from rfl,
    show MAX_VARINT_LEN = 10 from rfl, ht, if_neg (by simpa using hcond)]
  have hslice : ((enc v).drop (0 + 0)).take ((enc v).length - 1 + 1 - 0)
      = enc v := by
    rw [Nat.add_zero, List.drop_zero, show (enc v).length - 1 + 1 - 0
      = (enc v).length from by omega, List.take_length]
  rw [hslice, low7_assemble_enc, Nat.shiftLeft_zero, Nat.zero_or,
    show 0 + ((enc v).length - 1) + 1 = (enc v).length from by omega,
    enc_length_eq_size_uint]

/-- Claim C2: for every `v < 2^64`, marshaling `v` at offset 0 into a fresh
zero-filled buffer of length `size_uint v` succeeds returning offset
`size_uint v`, and unmarshaling the resulting buffer at offset 0 returns
exactly `(size_uint v, v)`. -/
theorem claim_c2_uint_roundtrip (v : Nat) (hv : v < 2 ^ 64) :
    ∃ b2, marshal_uint 0 (List.replicate (size_uint v) 0) v
        = .ok (size_uint v, b2)
      ∧ unmarshal_uint 0 b2 = .ok (size_uint v, v) := by
  have hL := enc_length_eq_size_uint v
  obtain ⟨b2, hok, hlen2, hin, hout⟩ :=
    marshal_loop_ok v 0 (List.replicate (size_uint v) 0)
      (by rw [List.length_replicate]; omega)
  have hb2 : b2 = enc v := by
    apply list_eq_of_getD
    · rw [hlen2, List.length_replicate, hL]
    · intro j hj
      have := hin j hj
      simpa using this
  refine ⟨b2, ?_, ?_⟩
  · rw [show marshal_uint 0 (List.replicate (size_uint v) 0) v
        = marshal_uint_loop (List.replicate (size_uint v) 0) 0 v from rfl,
      hok]
    rw [Nat.zero_add, hL]
  · rw [hb2]
    exact unmarshal_enc v hv

/-- Claim C2 witness: the round trip at the two-byte value 300. -/
theorem claim_c2_witness :
    ∃ b2, marshal_uint 0 (List.replicate (size_uint 300) 0) 300
        = .ok (size_uint 300, b2)
      ∧ unmarshal_uint 0 b2 = .ok (size_uint 300, 300) :=
  claim_c2_uint_roundtrip 300 (by norm_num)

/-- Claim C6: `size_string` is the UTF-8 byte count plus `size_uint` of that
byte count; on the one-character string "é" (code point 0xE9, 2 UTF-8 bytes)
this gives 3, differing from the character-count formula, which gives 2. -/
theorem claim_c6_size_string :
    (∀ s : List Nat, size_string s = utf8_len s + size_uint (utf8_len s))
    ∧ size_string [0xE9] = 3
    ∧ [0xE9].length + size_uint ([0xE9].length) = 2
    ∧ size_string [0xE9] ≠ [0xE9].length + size_uint ([0xE9].length) := by
  have h2 : utf8_len [0xE9] = 2 := rfl
  have hs2 : size_uint 2 = 1 := by rw [size_uint]; norm_num
  have hs1 : size_uint 1 = 1 := by rw [size_uint]; norm_num
  have h3 : size_string [0xE9] = 3 := by
    show utf8_len [0xE9] + size_uint (utf8_len [0xE9]) = 3
    rw [h2, hs2]
  have h4 : [0xE9].length + size_uint ([0xE9].length) = 2 := by
    show 1 + size_uint 1 = 2
    rw [hs1]
  exact ⟨fun s => rfl, h3, h4, by omega⟩

/-- Number of bits in the binary representation of a natural number, as in
the spec's `bitlength(v)` (Python `int.bit_length()`): 0 for 0, and
otherwise one more than the bit length of `v / 2`. -/
def bitlength : Nat → Nat
  | 0 => 0
  | v + 1 => bitlength ((v + 1) / 2) + 1
decreasing_by exact Nat.div_lt_self (Nat.succ_pos v) (by norm_num)

theorem bitlength_zero : bitlength 0 = 0 := by rw [bitlength]

theorem bitlength_pos_step (v : Nat) (h : 0 < v) :
    bitlength v = bitlength (v / 2) + 1 := by
  cases v with
  | zero => omega
  | succ w => rw [bitlength]

theorem bitlength_le : ∀ k v, v < 2 ^ k → bitlength v ≤ k := by
  intro k
  induction k with
  | zero =>
    intro v hv
    norm_num at hv
    rw [hv, bitlength_zero]
  | succ k ih =>
    intro v hv
    by_cases h0 : v = 0
    · rw [h0, bitlength_zero]
      omega
    · rw [bitlength_pos_step v (by omega)]
      have hdiv : v / 2 < 2 ^ k := by
        rw [pow_succ] at hv
        omega
      have := ih _ hdiv
      omega

theorem bitlength_ge : ∀ k v, 2 ^ k ≤ v → k + 1 ≤ bitlength v := by
  intro k
  induction k with
  | zero =>
    intro v hv
    norm_num at hv
    rw [bitlength_pos_step v hv]
    omega
  | succ k ih =>
    intro v hv
    have hpos : 0 < v := by
      have : (0 : Nat) < 2 ^ (k + 1) := by positivity
      omega
    rw [bitlength_pos_step v hpos]
    have hdiv : 2 ^ k ≤ v / 2 := by
      rw [pow_succ] at hv
      omega
    have := ih _ hdiv
    omega

theorem bitlength_div_pow : ∀ k v, 2 ^ k ≤ v →
    bitlength v = bitlength (v / 2 ^ k) + k := by
  intro k
  induction k with
  | zero =>
    intro v _
    simp
  | succ k ih =>
    intro v hv
    have hpos : 0 < v := by
      have : (0 : Nat) < 2 ^ (k + 1) := by positivity
      omega
    have hdiv : 2 ^ k ≤ v / 2 := by
      rw [pow_succ] at hv
      omega
    rw [bitlength_pos_step v hpos, ih (v / 2) hdiv,
      Nat.div_div_eq_div_mul, Nat.mul_comm 2 (2 ^ k), ← pow_succ]
    omega

/-- Shared size formula: `size_uint v = 1 + (bitlength v - 1) / 7` (natural
subtraction), for every `v`. -/
theorem size_uint_eq_bitlength (v : Nat) :
    size_uint v = 1 + (bitlength v - 1) / 7 := by
  induction v using Nat.strong_induction_on with
  | _ v ih =>
    by_cases h : 128 ≤ v
    · rw [size_uint, dif_pos h, shr7_eq_div, ih (v / 128) (by omega)]
      have hbl : bitlength v = bitlength (v / 2 ^ 7) + 7 :=
        bitlength_div_pow 7 v (by norm_num; omega)
      norm_num at hbl
      have hc1 : 1 ≤ bitlength (v / 128) :=
        bitlength_ge 0 (v / 128) (by omega)
      omega
    · rw [size_uint, dif_neg h]
      have hble : bitlength v ≤ 7 := bitlength_le 7 v (by norm_num; omega)
      omega

/-- Claim C7 counterexample: at `v = 127` (7 significant bits) the code gives
`size_uint 127 = 1` while the claimed formula `1 + bitlength(127)/7` gives
2. -/
theorem claim_c7_counterexample :
    (127 : Nat) < 2 ^ 64 ∧ bitlength 127 = 7 ∧
    ¬size_uint 127 = 1 + bitlength 127 / 7 := by
  have h7 : bitlength 127 = 7 := by
    rw [bitlength_pos_step 127 (by norm_num),
      show (127 : Nat) / 2 = 63 from by norm_num,
      bitlength_pos_step 63 (by norm_num),
      show (63 : Nat) / 2 = 31 from by norm_num,
      bitlength_pos_step 31 (by norm_num),
      show (31 : Nat) / 2 = 15 from by norm_num,
      bitlength_pos_step 15 (by norm_num),
      show (15 : Nat) / 2 = 7 from by norm_num,
      bitlength_pos_step 7 (by norm_num),
      show (7 : Nat) / 2 = 3 from by norm_num,
      bitlength_pos_step 3 (by norm_num),
      show (3 : Nat) / 2 = 1 from by norm_num,
      bitlength_pos_step 1 (by norm_num),
      show (1 : Nat) / 2 = 0 from by norm_num,
      bitlength_zero]
  have h1 : size_uint 127 = 1 := by rw [size_uint]; norm_num
  refine ⟨by norm_num, h7, ?_⟩
  rw [h1, h7]
  norm_num

/-- Claim C7 (amended): for every `v < 2^64`,
`size_uint v = 1 + (bitlength v - 1) / 7` with natural subtraction — one byte
per started 7-bit group rather than `1 + bitlength v / 7`. -/
theorem claim_c7_amended (v : Nat) (_hv : v < 2 ^ 64) :
    size_uint v = 1 + (bitlength v - 1) / 7 :=
  size_uint_eq_bitlength v

/-- Claim C7 witness: the amended formula evaluated at 1000. -/
theorem claim_c7_witness :
    (1000 : Nat) < 2 ^ 64 ∧ size_uint 1000 = 1 + (bitlength 1000 - 1) / 7 :=
  ⟨by norm_num, claim_c7_amended 1000 (by norm_num)⟩

/-- Claim C9 counterexample: at `v = 2^64` the encoding size is exactly 10
bytes, not more than 10 as claimed. -/
theorem claim_c9_counterexample :
    size_uint (2 ^ 64) = 10 ∧ ¬10 < size_uint (2 ^ 64) := by
  have hle := enc_length_le 9 (2 ^ 64) (by norm_num)
  have hge := enc_length_ge 9 (2 ^ 64) (by norm_num)
  have hL := enc_length_eq_size_uint (2 ^ 64)
  constructor <;> omega

/-- Claim C9 (amended): for every `v ≥ 2^64`, `size_uint v` is at least 10
(rather than strictly more than 10), `marshal_uint` happily writes the full
encoding into a buffer of that size, and `unmarshal_uint` on the written
encoding always raises OVERFLOW — the encode side enforces no 64-bit bound
and the round trip exists only below `2^64`. -/
theorem claim_c9_amended (v : Nat) (hv : 2 ^ 64 ≤ v) :
    10 ≤ size_uint v
    ∧ ∃ b2, marshal_uint 0 (List.replicate (size_uint v) 0) v
          = .ok (size_uint v, b2)
        ∧ unmarshal_uint 0 b2 = .error .OVERFLOW := by
  have hL := enc_length_eq_size_uint v
  have hge : 10 ≤ (enc v).length := by
    have h63 : (2 : Nat) ^ (7 * 9) ≤ v := by
      have := two_pow_le_two_pow (show 63 ≤ 64 by norm_num)
      norm_num at this ⊢
      omega
    have := enc_length_ge 9 v h63
    omega
  obtain ⟨b2, hok, hlen2, hin, hout⟩ :=
    marshal_loop_ok v 0 (List.replicate (size_uint v) 0)
      (by rw [List.length_replicate]; omega)
  have hb2 : b2 = enc v := by
    apply list_eq_of_getD
    · rw [hlen2, List.length_replicate, hL]
    · intro j hj
      simpa using hin j hj
  refine ⟨by omega, b2, ?_, ?_⟩
  · rw [show marshal_uint 0 (List.replicate (size_uint v) 0) v
        = marshal_uint_loop (List.replicate (size_uint v) 0) 0 v from rfl,
      hok, Nat.zero_add, hL]
  · rw [hb2]
    by_cases h11 : 11 ≤ (enc v).length
    · exact ul_overflow_exhaust (enc v) 0 10 0 0 0 (by omega)
        fun j _ hj => by
          have := enc_getD_cont v j (by omega)
          simpa using this
    · have hL10 : (enc v).length = 10 := by omega
      have ht := ul_term (enc v) 0 10 0 0 0 9 (by omega) (by omega)
        (by omega)
        (fun j _ hj => by
          have := enc_getD_cont v j (by omega)
          simpa using this)
        (by
          have := enc_getD_last_lt v
          rw [hL10] at this
          simpa using this)
      have hbig : 1 < (enc v).getD (0 + 9) 0 := by
        have hlast := enc_getD_last v
        rw [hL10] at hlast
        norm_num at hlast ⊢
        rw [hlast, Nat.shiftRight_eq_div_pow]
        have hdm := Nat.div_mul_le_self v (2 ^ 63)
        have h2 : 2 ^ 63 * 2 = 2 ^ 64 := by norm_num
        norm_num at hdm h2 ⊢
        omega
      exact ht.trans (if_pos ⟨by decide, hbig⟩)

/-- Claim C9 witness: the amended statement at `v = 2^64` itself. -/
theorem claim_c9_witness :
    10 ≤ size_uint (2 ^ 64)
    ∧ ∃ b2, marshal_uint 0 (List.replicate (size_uint (2 ^ 64)) 0) (2 ^ 64)
          = .ok (size_uint (2 ^ 64), b2)
        ∧ unmarshal_uint 0 b2 = .error .OVERFLOW :=
  claim_c9_amended (2 ^ 64) (Nat.le_refl _)

/-- Claim C10: `marshal_byte` masks its argument to the low 8 bits, so it
succeeds for every integer (negative or above 255) given one byte of room,
and the byte round trip yields `v mod 256`, which equals `v` exactly when
`0 ≤ v ≤ 255`. -/
theorem claim_c10_marshal_byte (v : Int) (n : Nat) (b : List Nat)
    (h : n < b.length) :
    marshal_byte n b v = .ok (n + 1, b.set n (v % 256).toNat)
    ∧ unmarshal_byte n (b.set n (v % 256).toNat) = .ok (n + 1, (v % 256).toNat)
    ∧ (((v % 256).toNat : Int) = v ↔ 0 ≤ v ∧ v ≤ 255) := by
  refine ⟨?_, ?_, ?_⟩
  · rw [marshal_byte, if_neg (by omega)]
  · rw [unmarshal_byte, if_neg (by rw [List.length_set]; omega),
      getD_set_self b n _ h]
  · omega

/-- Claim C10 witness: marshaling 300 writes the byte 44 and the round trip
returns 44, which differs from 300. -/
theorem claim_c10_witness :
    marshal_byte 0 [7] 300 = .ok (1, [44])
    ∧ unmarshal_byte 0 [44] = .ok (1, 44)
    ∧ ((44 : Int) ≠ 300) := by
  have h := claim_c10_marshal_byte 300 0 [7] (by norm_num)
  have he : ((300 : Int) % 256).toNat = 44 := by decide
  rw [he] at h
  obtain ⟨h1, h2, _⟩ := h
  refine ⟨by simpa using h1, by simpa using h2, by norm_num⟩

/-! ### Container lemmas -/

theorem getD_take (l : List Nat) (t j : Nat) (h : j < t) :
    (l.take t).getD j 0 = l.getD j 0 := by
  rw [List.getD_eq_getElem?_getD, List.getD_eq_getElem?_getD,
    List.getElem?_take, if_pos h]

theorem getD_drop_take (buf : List Nat) (n t j : Nat) (h : j < t) :
    ((buf.drop n).take t).getD j 0 = buf.getD (n + j) 0 := by
  rw [getD_take _ _ _ h, List.getD_eq_getElem?_getD,
    List.getElem?_drop, ← List.getD_eq_getElem?_getD]

theorem unmarshal_uint_mono (n : Nat) (b : List Nat) (n1 v : Nat)
    (h : unmarshal_uint n b = .ok (n1, v)) : n < n1 := by
  have := ul_mono b n MAX_VARINT_LEN 0 0 0 n1 v h
  omega

theorem unmarshal_uint_stable (n : Nat) (b b2 : List Nat) (n1 v : Nat)
    (h : unmarshal_uint n b = .ok (n1, v)) (hlen : n1 ≤ b2.length)
    (hag : ∀ j, n ≤ j → j < n1 → b2.getD j 0 = b.getD j 0) :
    unmarshal_uint n b2 = .ok (n1, v) :=
  ul_stable b b2 n MAX_VARINT_LEN 0 0 0 n1 v h hlen
    fun j hj hjl => hag j (by omega) hjl

theorem use_mono {α : Type} (U : Nat → List Nat → Except BencError (Nat × α))
    (HU : ∀ k bb k2 x, U k bb = .ok (k2, x) → k ≤ k2) :
    ∀ cnt k bb p l, unmarshal_slice_elems U cnt k bb = .ok (p, l) →
      k ≤ p ∧ l.length = cnt := by
  intro cnt
  induction cnt with
  | zero =>
    intro k bb p l h
    simp only [unmarshal_slice_elems, Except.ok.injEq, Prod.mk.injEq] at h
    obtain ⟨h1, h2⟩ := h
    subst h1
    subst h2
    simp
  | succ cnt ih =>
    intro k bb p l h
    simp only [unmarshal_slice_elems] at h
    cases h1 : U k bb with
    | error e =>
      rw [h1] at h
      exact absurd h (by simp)
    | ok kx =>
      obtain ⟨k1, x⟩ := kx
      rw [h1] at h
      dsimp only at h
      cases h2 : unmarshal_slice_elems U cnt k1 bb with
      | error e =>
        rw [h2] at h
        exact absurd h (by simp)
      | ok pr =>
        obtain ⟨p2, rest⟩ := pr
        rw [h2] at h
        dsimp only at h
        simp only [Except.ok.injEq, Prod.mk.injEq] at h
        obtain ⟨hp, hl⟩ := h
        subst hp
        subst hl
        have hk1 := HU k bb k1 x h1
        have := ih k1 bb p2 rest h2
        simp only [List.length_cons]
        omega

theorem use_stable {α : Type} (U : Nat → List Nat → Except BencError (Nat × α))
    (HU : ∀ k bb k2 x, U k bb = .ok (k2, x) →
      k ≤ k2 ∧ ∀ b3, k2 ≤ b3.length →
        (∀ j, k ≤ j → j < k2 → b3.getD j 0 = bb.getD j 0) →
        U k b3 = .ok (k2, x)) :
    ∀ cnt k bb p l, unmarshal_slice_elems U cnt k bb = .ok (p, l) →
      ∀ b3, p ≤ b3.length →
        (∀ j, k ≤ j → j < p → b3.getD j 0 = bb.getD j 0) →
        unmarshal_slice_elems U cnt k b3 = .ok (p, l) := by
  intro cnt
  induction cnt with
  | zero =>
    intro k bb p l h b3 _ _
    exact h
  | succ cnt ih =>
    intro k bb p l h b3 hlen hag
    simp only [unmarshal_slice_elems] at h ⊢
    cases h1 : U k bb with
    | error e =>
      rw [h1] at h
      exact absurd h (by simp)
    | ok kx =>
      obtain ⟨k1, x⟩ := kx
      rw [h1] at h
      dsimp only at h
      cases h2 : unmarshal_slice_elems U cnt k1 bb with
      | error e =>
        rw [h2] at h
        exact absurd h (by simp)
      | ok pr =>
        obtain ⟨p2, rest⟩ := pr
        rw [h2] at h
        dsimp only at h
        simp only [Except.ok.injEq, Prod.mk.injEq] at h
        obtain ⟨hp, hl⟩ := h
        subst hp
        subst hl
        have hk1 := (HU k bb k1 x h1).1
        have hp2 := (use_mono U (fun k bb k2 x hh => (HU k bb k2 x hh).1)
          cnt k1 bb p2 rest h2).1
        have hU3 : U k b3 = .ok (k1, x) :=
          (HU k bb k1 x h1).2 b3 (by omega)
            fun j hj hjl => hag j hj (by omega)
        rw [hU3]
        dsimp only
        rw [ih k1 bb p2 rest h2 b3 hlen fun j hj hjl => hag j (by omega) hjl]

/-- Claim C8: a successful `unmarshal_slice` reads the count, runs the
element unmarshaler exactly count times in order, then merely checks that 4
terminator bytes are present: any buffer of the same length agreeing below
the terminator unmarshals to the same offset and list (the terminator bytes
are never inspected), and truncating the buffer one byte before the
terminator fails with BUF_TOO_SMALL.  The element unmarshaler is assumed to
advance the cursor and to depend only on the bytes it consumes. -/
theorem claim_c8_unmarshal_slice {α : Type}
    (U : Nat → List Nat → Except BencError (Nat × α))
    (HU : ∀ k bb k2 x, U k bb = .ok (k2, x) →
      k ≤ k2 ∧ ∀ b3, k2 ≤ b3.length →
        (∀ j, k ≤ j → j < k2 → b3.getD j 0 = bb.getD j 0) →
        U k b3 = .ok (k2, x))
    (n : Nat) (b : List Nat) (m : Nat) (l : List α)
    (hrun : unmarshal_slice n b U = .ok (m, l)) :
    (∀ b2, b2.length = b.length →
      (∀ j, j < m - 4 → b2.getD j 0 = b.getD j 0) →
      unmarshal_slice n b2 U = .ok (m, l))
    ∧ unmarshal_slice n (b.take (m - 1)) U = .error .BUF_TOO_SMALL := by
  simp only [unmarshal_slice] at hrun
  cases hu : unmarshal_uint n b with
  | error e =>
    rw [hu] at hrun
    exact absurd hrun (by simp)
  | ok nc =>
    obtain ⟨n1, cnt⟩ := nc
    rw [hu] at hrun
    dsimp only at hrun
    cases he : unmarshal_slice_elems U cnt n1 b with
    | error e =>
      rw [he] at hrun
      exact absurd hrun (by simp)
    | ok pr =>
      obtain ⟨n2, res⟩ := pr
      rw [he] at hrun
      dsimp only at hrun
      split_ifs at hrun with hterm
      simp only [Except.ok.injEq, Prod.mk.injEq] at hrun
      obtain ⟨hm, hl⟩ := hrun
      subst hm
      subst hl
      have hn1 : n < n1 := unmarshal_uint_mono n b n1 cnt hu
      have hn2 : n1 ≤ n2 :=
        (use_mono U (fun k bb k2 x hh => (HU k bb k2 x hh).1)
          cnt n1 b n2 res he).1
      have hblen : n2 + 4 ≤ b.length := by omega
      constructor
      · intro b2 hlen2 hag
        have hm4 : n2 + 4 - 4 = n2 := by omega
        rw [hm4] at hag
        have hu2 : unmarshal_uint n b2 = .ok (n1, cnt) :=
          unmarshal_uint_stable n b b2 n1 cnt hu (by omega)
            fun j hj hjl => hag j (by omega)
        have he2 : unmarshal_slice_elems U cnt n1 b2 = .ok (n2, res) :=
          use_stable U HU cnt n1 b n2 res he b2 (by omega)
            fun j hj hjl => hag j (by omega)
        simp only [unmarshal_slice, hu2, he2]
        rw [if_neg (by omega)]
      · have htlen : (b.take (n2 + 4 - 1)).length = n2 + 3 := by
          rw [List.length_take]
          omega
        have hu2 : unmarshal_uint n (b.take (n2 + 4 - 1)) = .ok (n1, cnt) :=
          unmarshal_uint_stable n b _ n1 cnt hu (by omega)
            fun j hj hjl => getD_take b _ j (by omega)
        have he2 : unmarshal_slice_elems U cnt n1 (b.take (n2 + 4 - 1))
            = .ok (n2, res) :=
          use_stable U HU cnt n1 b n2 res he _ (by omega)
            fun j hj hjl => getD_take b _ j (by omega)
        simp only [unmarshal_slice, hu2, he2]
        rw [if_pos (by omega)]

/-- Element property pack for `unmarshal_byte`: it advances by one and reads
only the byte it consumes. -/
theorem unmarshal_byte_props :
    ∀ k bb k2 x, unmarshal_byte k bb = .ok (k2, x) →
      k ≤ k2 ∧ ∀ b3 : List Nat, k2 ≤ b3.length →
        (∀ j, k ≤ j → j < k2 → b3.getD j 0 = bb.getD j 0) →
        unmarshal_byte k b3 = .ok (k2, x) := by
  intro k bb k2 x h
  rw [unmarshal_byte] at h
  split_ifs at h with h1
  simp only [Except.ok.injEq, Prod.mk.injEq] at h
  obtain ⟨hk, hx⟩ := h
  subst hk
  subst hx
  refine ⟨by omega, ?_⟩
  intro b3 hlen hag
  rw [unmarshal_byte, if_neg (by omega), hag k (by omega) (by omega)]

/-- Claim C8 witness: a two-byte slice `[7, 9]` with count 2; replacing the
four terminator bytes `1 1 1 1` by `5 6 7 8` unmarshals identically, and
dropping the last byte fails with BUF_TOO_SMALL. -/
theorem claim_c8_witness :
    unmarshal_slice 0 [2, 7, 9, 5, 6, 7, 8] unmarshal_byte = .ok (7, [7, 9])
    ∧ unmarshal_slice 0 [2, 7, 9, 1, 1, 1] unmarshal_byte
        = .error .BUF_TOO_SMALL := by
  have h := claim_c8_unmarshal_slice unmarshal_byte unmarshal_byte_props
    0 [2, 7, 9, 1, 1, 1, 1] 7 [7, 9] rfl
  constructor
  · exact h.1 [2, 7, 9, 5, 6, 7, 8] rfl fun j hj => by
      have hj3 : j = 0 ∨ j = 1 ∨ j = 2 := by omega
      rcases hj3 with rfl | rfl | rfl <;> rfl
  · exact h.2

theorem marshal_loop_ok_inv (v : Nat) :
    ∀ i b i2 b2, marshal_uint_loop b i v = .ok (i2, b2) →
      i + (enc v).length ≤ b.length := by
  induction v using Nat.strong_induction_on with
  | _ v ih =>
    intro i b i2 b2 h
    by_cases hv : 128 ≤ v
    · rw [marshal_uint_loop, dif_pos hv] at h
      split_ifs at h with h1
      have := ih _ (shr7_lt hv) _ _ _ _ h
      rw [List.length_set] at this
      rw [enc_of_ge v hv, List.length_cons]
      omega
    · rw [marshal_uint_loop, dif_neg hv] at h
      split_ifs at h with h1
      rw [enc_of_lt v (by omega), List.length_singleton]
      omega

/-- General decoding lemma: any buffer holding the encoding of `v < 2^64` at
offsets `[n, n + (enc v).length)` unmarshals at `n` to
`(n + size_uint v, v)`. -/
theorem unmarshal_enc_at (v : Nat) (hv : v < 2 ^ 64) (buf : List Nat)
    (n : Nat) (hlen : n + (enc v).length ≤ buf.length)
    (hag : ∀ j, j < (enc v).length → buf.getD (n + j) 0 = (enc v).getD j 0) :
    unmarshal_uint n buf = .ok (n + size_uint v, v) := by
  have hLpos := enc_length_pos v
  have hL10 : (enc v).length ≤ 10 := by
    have h70 : v < 2 ^ (7 * 9 + 7) := by
      have := two_pow_le_two_pow (show 64 ≤ 70 by norm_num)
      omega
    have := enc_length_le 9 v h70
    omega
  have ht := ul_term buf n 10 0 0 0 ((enc v).length - 1) (by omega)
    (by omega) (by omega)
    (fun j _ hj => by
      have h2 := enc_getD_cont v j (by omega)
      have h3 := hag j (by omega)
      omega)
    (by
      have h2 := enc_getD_last_lt v
      have h3 := hag ((enc v).length - 1) (by omega)
      omega)
  have hcond : ¬((enc v).length - 1 = MAX_VARINT_LEN - 1 ∧
      buf.getD (n + ((enc v).length - 1)) 0 > 1) := by
    rintro ⟨hk9, hbig⟩
    norm_num [MAX_VARINT_LEN] at hk9
    have hlast := enc_getD_last v
    have h3 := hag ((enc v).length - 1) (by omega)
    rw [h3, hlast, hk9, Nat.shiftRight_eq_div_pow] at hbig
    norm_num at hbig
    have hdm := Nat.div_mul_le_self v (2 ^ 63)
    norm_num at hdm
    norm_num at hv
    omega
  rw [show unmarshal_uint n buf
      = unmarshal_uint_loop buf n MAX_VARINT_LEN 0 0 0 from rfl,
    show MAX_VARINT_LEN = 10 from rfl, ht, if_neg hcond,
    show (enc v).length - 1 + 1 - 0 = (enc v).length from by omega]
  have hslice : (buf.drop (n + 0)).take ((enc v).length) = enc v := by
    apply list_eq_of_getD
    · rw [List.length_take, List.length_drop]
      omega
    · intro j hj
      rw [getD_drop_take buf (n + 0) _ j hj,
        show n + 0 + j = n + j from by omega]
      exact hag j hj
  rw [hslice, low7_assemble_enc, Nat.shiftLeft_zero, Nat.zero_or,
    show n + ((enc v).length - 1) + 1 = n + size_uint v from by
      rw [← enc_length_eq_size_uint]; omega]

theorem mse_props {α : Type}
    (M : Nat → List Nat → α → Except BencError (Nat × List Nat))
    (HM : ∀ k bb x k2 b2, M k bb x = .ok (k2, b2) →
      k ≤ k2 ∧ b2.length = bb.length ∧
        ∀ j, j < k ∨ k2 ≤ j → b2.getD j 0 = bb.getD j 0) :
    ∀ l k bb p b2, marshal_slice_elems M l k bb = .ok (p, b2) →
      k ≤ p ∧ b2.length = bb.length ∧
        ∀ j, j < k ∨ p ≤ j → b2.getD j 0 = bb.getD j 0 := by
  intro l
  induction l with
  | nil =>
    intro k bb p b2 h
    simp only [marshal_slice_elems, Except.ok.injEq, Prod.mk.injEq] at h
    obtain ⟨h1, h2⟩ := h
    subst h1
    subst h2
    exact ⟨Nat.le_refl _, rfl, fun j _ => rfl⟩
  | cons x rest ih =>
    intro k bb p b2 h
    simp only [marshal_slice_elems] at h
    cases h1 : M k bb x with
    | error e =>
      rw [h1] at h
      exact absurd h (by simp)
    | ok kb =>
      obtain ⟨k1, bmid⟩ := kb
      rw [h1] at h
      dsimp only at h
      obtain ⟨hk1, hlen1, hout1⟩ := HM k bb x k1 bmid h1
      obtain ⟨hkp, hlen2, hout2⟩ := ih k1 bmid p b2 h
      refine ⟨by omega, by rw [hlen2, hlen1], ?_⟩
      intro j hj
      rw [hout2 j (by omega), hout1 j (by omega)]

theorem skip_elems_replay {α : Type}
    (M : Nat → List Nat → α → Except BencError (Nat × List Nat))
    (S : Nat → List Nat → Except BencError Nat)
    (HM : ∀ k bb x k2 b2, M k bb x = .ok (k2, b2) →
      k ≤ k2 ∧ b2.length = bb.length ∧
        ∀ j, j < k ∨ k2 ≤ j → b2.getD j 0 = bb.getD j 0)
    (HS : ∀ k bb x k2 b2, M k bb x = .ok (k2, b2) →
      ∀ b3, k2 ≤ b3.length →
        (∀ j, k ≤ j → j < k2 → b3.getD j 0 = b2.getD j 0) →
        S k b3 = .ok k2) :
    ∀ l k bb p b2, marshal_slice_elems M l k bb = .ok (p, b2) →
      ∀ b3, p ≤ b3.length →
        (∀ j, k ≤ j → j < p → b3.getD j 0 = b2.getD j 0) →
        skip_slice_elems S l.length k b3 = .ok p := by
  intro l
  induction l with
  | nil =>
    intro k bb p b2 h b3 _ _
    simp only [marshal_slice_elems, Except.ok.injEq, Prod.mk.injEq] at h
    obtain ⟨h1, _⟩ := h
    subst h1
    rfl
  | cons x rest ih =>
    intro k bb p b2 h b3 hlen hag
    simp only [marshal_slice_elems] at h
    cases h1 : M k bb x with
    | error e =>
      rw [h1] at h
      exact absurd h (by simp)
    | ok kb =>
      obtain ⟨k1, bmid⟩ := kb
      rw [h1] at h
      dsimp only at h
      obtain ⟨hk1, hlen1, _⟩ := HM k bb x k1 bmid h1
      obtain ⟨hkp, hlen2, hout2⟩ := mse_props M HM rest k1 bmid p b2 h
      have hS : S k b3 = .ok k1 :=
        HS k bb x k1 bmid h1 b3 (by omega) fun j hj hjl => by
          rw [hag j hj (by omega), hout2 j (by omega)]
      rw [List.length_cons]
      simp only [skip_slice_elems, hS]
      exact ih k1 bmid p b2 h b3 hlen fun j hj hjl => hag j (by omega) hjl

theorem wt_length (b : List Nat) (i : Nat) :
    (write_terminator b i).length = b.length := by
  simp [write_terminator, List.length_set]

theorem wt_getD_lt (b : List Nat) (i j : Nat) (h : j < i) :
    (write_terminator b i).getD j 0 = b.getD j 0 := by
  rw [write_terminator, getD_set_ne _ _ (by omega), getD_set_ne _ _ (by omega),
    getD_set_ne _ _ (by omega), getD_set_ne _ _ (by omega)]

/-- Claim C5: the count-driven `skip_slice` of bstd.py consumes exactly the
bytes `marshal_slice` produced: if marshaling a list at offset `n` returns
offset `m` and final buffer `bf`, then `skip_slice n bf` returns exactly
`m`, by replaying the count and the per-element skip — payload bytes are
never pattern-scanned for the `{1,1,1,1}` sentinel.  The element marshaler
is assumed to write only inside the region it advances over, and the element
skipper to replay the marshaler from the bytes it wrote. -/
theorem claim_c5_skip_slice {α : Type}
    (M : Nat → List Nat → α → Except BencError (Nat × List Nat))
    (S : Nat → List Nat → Except BencError Nat)
    (HM : ∀ k bb x k2 b2, M k bb x = .ok (k2, b2) →
      k ≤ k2 ∧ b2.length = bb.length ∧
        ∀ j, j < k ∨ k2 ≤ j → b2.getD j 0 = bb.getD j 0)
    (HS : ∀ k bb x k2 b2, M k bb x = .ok (k2, b2) →
      ∀ b3, k2 ≤ b3.length →
        (∀ j, k ≤ j → j < k2 → b3.getD j 0 = b2.getD j 0) →
        S k b3 = .ok k2)
    (l : List α) (hcnt : l.length < 2 ^ 64)
    (n : Nat) (b : List Nat) (m : Nat) (bf : List Nat)
    (hrun : marshal_slice n b l M = .ok (m, bf)) :
    skip_slice n bf S = .ok m := by
  simp only [marshal_slice] at hrun
  cases hmu : marshal_uint n b l.length with
  | error e =>
    rw [hmu] at hrun
    exact absurd hrun (by simp)
  | ok nb =>
    obtain ⟨n1, b1⟩ := nb
    rw [hmu] at hrun
    dsimp only at hrun
    cases hme : marshal_slice_elems M l n1 b1 with
    | error e =>
      rw [hme] at hrun
      exact absurd hrun (by simp)
    | ok nb2 =>
      obtain ⟨n2, b2⟩ := nb2
      rw [hme] at hrun
      dsimp only at hrun
      split_ifs at hrun with hterm
      simp only [Except.ok.injEq, Prod.mk.injEq] at hrun
      obtain ⟨hm, hbf⟩ := hrun
      subst hm
      subst hbf
      have hinv := marshal_loop_ok_inv l.length n b n1 b1 hmu
      obtain ⟨b1x, hok, hlen1, hin1, hout1⟩ := marshal_loop_ok l.length n b hinv
      have hmu2 : marshal_uint_loop b n l.length = .ok (n1, b1) := hmu
      rw [hok] at hmu2
      simp only [Except.ok.injEq, Prod.mk.injEq] at hmu2
      obtain ⟨hn1, hb1⟩ := hmu2
      subst hb1
      obtain ⟨hn1n2, hlen2, hout2⟩ := mse_props M HM l n1 b1x n2 b2 hme
      have hLq : (enc l.length).length = size_uint l.length :=
        enc_length_eq_size_uint _
      have hcount : unmarshal_uint n (write_terminator b2 n2)
          = .ok (n1, l.length) := by
        have hu := unmarshal_enc_at l.length hcnt (write_terminator b2 n2) n
          (by rw [wt_length]; omega)
          (fun j hj => by
            rw [wt_getD_lt b2 n2 (n + j) (by omega),
              hout2 (n + j) (Or.inl (by omega))]
            exact hin1 j hj)
        rw [show n + size_uint l.length = n1 from by omega] at hu
        exact hu
      simp only [skip_slice, hcount]
      have hskip : skip_slice_elems S l.length n1 (write_terminator b2 n2)
          = .ok n2 :=
        skip_elems_replay M S HM HS l n1 b1x n2 b2 hme (write_terminator b2 n2)
          (by rw [wt_length]; omega)
          (fun j hj hjl => wt_getD_lt b2 n2 j (by omega))
      simp only [hskip]
      rw [if_neg (by rw [wt_length]; omega)]

theorem marshal_byte_props :
    ∀ (k : Nat) (bb : List Nat) (x : Int) (k2 : Nat) (b2 : List Nat),
      marshal_byte k bb x = .ok (k2, b2) →
      k ≤ k2 ∧ b2.length = bb.length ∧
        ∀ j, j < k ∨ k2 ≤ j → b2.getD j 0 = bb.getD j 0 := by
  intro k bb x k2 b2 h
  rw [marshal_byte] at h
  split_ifs at h with h1
  simp only [Except.ok.injEq, Prod.mk.injEq] at h
  obtain ⟨hk, hb⟩ := h
  subst hk
  subst hb
  refine ⟨by omega, List.length_set bb k _, ?_⟩
  intro j hj
  exact getD_set_ne bb _ (by omega)

theorem skip_byte_replays :
    ∀ (k : Nat) (bb : List Nat) (x : Int) (k2 : Nat) (b2 : List Nat),
      marshal_byte k bb x = .ok (k2, b2) →
      ∀ b3 : List Nat, k2 ≤ b3.length →
        (∀ j, k ≤ j → j < k2 → b3.getD j 0 = b2.getD j 0) →
        skip_byte k b3 = .ok k2 := by
  intro k bb x k2 b2 h b3 hlen hag
  rw [marshal_byte] at h
  split_ifs at h with h1
  simp only [Except.ok.injEq, Prod.mk.injEq] at h
  obtain ⟨hk, _⟩ := h
  subst hk
  rw [skip_byte, if_neg (by omega)]

/-- Claim C5 witness: a slice of five byte elements, each the byte 1, whose
payload therefore contains the sentinel pattern `{1,1,1,1}`; the count-driven
skip still returns the full end offset 10 written by marshal. -/
theorem claim_c5_witness :
    marshal_slice 0 (List.replicate 10 0) ([1, 1, 1, 1, 1] : List Int)
        marshal_byte
      = .ok (10, [5, 1, 1, 1, 1, 1, 1, 1, 1, 1])
    ∧ skip_slice 0 [5, 1, 1, 1, 1, 1, 1, 1, 1, 1] skip_byte = .ok 10 := by
  have hrun : marshal_slice 0 (List.replicate 10 0) ([1, 1, 1, 1, 1] : List Int)
      marshal_byte = .ok (10, [5, 1, 1, 1, 1, 1, 1, 1, 1, 1]) := by
    simp [marshal_slice, marshal_uint, marshal_uint_loop, marshal_slice_elems,
      marshal_byte, write_terminator, List.replicate]
    decide
  exact ⟨hrun, claim_c5_skip_slice marshal_byte skip_byte marshal_byte_props
    skip_byte_replays [1, 1, 1, 1, 1] (by norm_num) 0 (List.replicate 10 0) 10
    [5, 1, 1, 1, 1, 1, 1, 1, 1, 1] hrun⟩

end Bstd
